import Mathlib

/-!
# Financial-Markets-Dashboard — verification of the Quote Acquisition Core
and the frontend formatting/filtering helpers

The frontend helpers (`formatPercent`, `getColorForPercentChange`,
`filteredCompanies`) are embedded from `src/frontend/src/lib/format.ts` and
`src/frontend/src/App.tsx`.  The backend Quote Acquisition Core (token-bucket
limiter, TTL quote cache, acquisition orchestrator) is present in the
repository only through its README and the frontend API types, so those
components are modelled from the specification (§3, §4 of spec.md), as marked
on each definition.

Time is modelled by the rationals (seconds); JavaScript numbers by an
inductive type distinguishing `null`, `undefined`, `NaN` and finite values.
-/

namespace Dashboard

abbrev Time := ℚ
abbrev Symbol := String

/-! ## Token bucket limiter (model) -/

/-- Modelled from the spec: the backend token-bucket limiter state (spec §3
"RateBudget"); the implementation is absent from `src/`.  `capacity` is the
maximum number of tokens (= max calls per minute), `tokens` the currently
available tokens, `lastRefill` the timestamp of the last replenishment
computation. -/
structure TokenBucket where
  capacity : ℚ
  tokens : ℚ
  lastRefill : Time
  deriving Repr, DecidableEq

/-- Modelled from the spec: the lazy refill step (spec §4.1): recompute
`tokens = min(capacity, tokens + elapsedSeconds * capacity/60)`. -/
def TokenBucket.refill (b : TokenBucket) (now : Time) : TokenBucket :=
  { b with
    tokens := min b.capacity (b.tokens + (now - b.lastRefill) * (b.capacity / 60))
    lastRefill := now }

/-- Modelled from the spec: `tryAcquire(n) → bool` (spec §4.1): first refill
lazily, then admit and subtract `n` when the recomputed tokens are at least
`n`; otherwise deny with no state change. -/
def TokenBucket.tryAcquire (b : TokenBucket) (n : ℚ) (now : Time) : Bool × TokenBucket :=
  let r := b.refill now
  if n ≤ r.tokens then (true, { r with tokens := r.tokens - n }) else (false, b)

/-- The invariant of spec §3: `0 ≤ tokens ≤ capacity`. -/
def TokenBucket.Valid (b : TokenBucket) : Prop :=
  0 ≤ b.tokens ∧ b.tokens ≤ b.capacity

/-- Iterate `tryAcquire` over a list of (amount, time) requests, keeping the
resulting bucket state of each call. -/
def TokenBucket.runCalls (b : TokenBucket) : List (ℚ × Time) → TokenBucket
  | [] => b
  | c :: cs => TokenBucket.runCalls (b.tryAcquire c.1 c.2).2 cs

/-- `k` back-to-back `tryAcquire 1` calls at the single instant `t`. -/
def TokenBucket.stepN (t : Time) (b : TokenBucket) : Nat → TokenBucket
  | 0 => b
  | k + 1 => ((TokenBucket.stepN t b k).tryAcquire 1 t).2

/-! ## Quote cache and acquisition orchestrator (model) -/

/-- Modelled from the spec: the quote payload fields of spec §3
"QuoteCacheEntry" (close, previous close, open, high, low, change, percent
change, market capitalization, provider tag); the backend type is absent from
`src/`. -/
structure Quote where
  close : ℚ
  previousClose : ℚ
  openPrice : ℚ
  high : ℚ
  low : ℚ
  change : ℚ
  percentChange : ℚ
  marketCap : ℚ
  provider : String
  deriving Repr, DecidableEq

/-- Modelled from the spec: a cache entry holds the last successfully fetched
quote and the timestamp of that fetch (spec §3). -/
structure QuoteCacheEntry where
  quote : Quote
  fetchedAt : Time
  deriving Repr, DecidableEq

/-- The quote cache as a map from symbol to its (at most one) entry. -/
abbrev Cache := Symbol → Option QuoteCacheEntry

/-- Modelled from the spec: the upstream quote provider boundary (spec §6),
one quote per symbol per call; failure carries a cause message. -/
abbrev Provider := Symbol → Except String Quote

/-- Modelled from the spec: configuration surface consumed by the core
(spec §6); only the cache TTL matters to the modelled decisions. -/
structure OrchConfig where
  ttl : ℚ
  deriving Repr, DecidableEq

/-- Per-symbol status (spec §3 "PerSymbolResult"). -/
inductive QStatus where
  | ok
  | stale
  | error
  deriving Repr, DecidableEq

/-- Per-symbol source (spec §3 "PerSymbolResult"). -/
inductive QSource where
  | cache
  | upstream
  | stale_cache
  deriving Repr, DecidableEq

/-- Modelled from the spec: the per-symbol result record (spec §3). -/
structure PerSymbolResult where
  symbol : Symbol
  quote : Option Quote
  status : QStatus
  error : Option String
  source : Option QSource
  deriving Repr, DecidableEq

/-- Modelled from the spec: batch metadata (spec §3 "BatchResult.meta"). -/
structure BatchMeta where
  requested : Nat
  returned : Nat
  cacheHits : Nat
  apiCalls : Nat
  rateLimited : Bool
  deriving Repr, DecidableEq

/-- Modelled from the spec: the aggregated batch result (spec §3). -/
structure BatchResult where
  items : List PerSymbolResult
  meta : BatchMeta
  deriving Repr, DecidableEq

/-- The mutable state shared by the orchestrator's per-symbol steps: the
limiter bucket, the quote cache, and (as observable instrumentation) the log
of upstream calls made, in order. -/
structure OrchState where
  bucket : TokenBucket
  cache : Cache
  calls : List Symbol

/-- Modelled from the spec: the fetch-candidate path (spec §4.4 step 2):
ask the limiter; on denial fall back to any cached entry (stale) or to a
typed error, setting the batch `rateLimited` flag; on admission call the
upstream provider, writing the cache on success and falling back to any
cached entry (or a typed error) on failure, incrementing `apiCalls` for the
attempt regardless of outcome. -/
def doFetch (fetch : Provider) (now : Time) (st : OrchState) (meta : BatchMeta)
    (sym : Symbol) : (OrchState × BatchMeta) × PerSymbolResult :=
  let res := st.bucket.tryAcquire 1 now
  if res.1 then
    let st1 : OrchState := { st with bucket := res.2, calls := st.calls ++ [sym] }
    let meta1 : BatchMeta := { meta with apiCalls := meta.apiCalls + 1 }
    match fetch sym with
    | .ok q =>
        (({ st1 with cache := fun s => if s = sym then some ⟨q, now⟩ else st.cache s }, meta1),
          ⟨sym, some q, .ok, none, some .upstream⟩)
    | .error cause =>
        match st.cache sym with
        | some e => ((st1, meta1), ⟨sym, some e.quote, .stale, none, some .stale_cache⟩)
        | none => ((st1, meta1), ⟨sym, none, .error, some cause, none⟩)
  else
    match st.cache sym with
    | some e =>
        (({ st with bucket := res.2 }, { meta with rateLimited := true }),
          ⟨sym, some e.quote, .stale, none, some .stale_cache⟩)
    | none =>
        (({ st with bucket := res.2 }, { meta with rateLimited := true }),
          ⟨sym, none, .error, some "rate limited, no cached data", none⟩)

/-- Modelled from the spec: the per-symbol decision (spec §4.4): serve a
fresh cache entry directly when `refresh` is false (incrementing
`cacheHits`, no upstream call); otherwise the symbol is a fetch candidate
and follows `doFetch`. -/
def processSymbol (cfg : OrchConfig) (fetch : Provider) (now : Time) (refresh : Bool)
    (acc : OrchState × BatchMeta) (sym : Symbol) : (OrchState × BatchMeta) × PerSymbolResult :=
  match acc.1.cache sym with
  | some e =>
      if refresh = false ∧ now - e.fetchedAt < cfg.ttl then
        ((acc.1, { acc.2 with cacheHits := acc.2.cacheHits + 1 }),
          ⟨sym, some e.quote, .ok, none, some .cache⟩)
      else doFetch fetch now acc.1 acc.2 sym
  | none => doFetch fetch now acc.1 acc.2 sym

/-- Process the requested symbols in caller order, threading the shared state
and metadata and collecting the per-symbol results in the same order. -/
def processList (cfg : OrchConfig) (fetch : Provider) (now : Time) (refresh : Bool) :
    OrchState × BatchMeta → List Symbol → (OrchState × BatchMeta) × List PerSymbolResult
  | acc, [] => (acc, [])
  | acc, s :: rest =>
      let p := processSymbol cfg fetch now refresh acc s
      let q := processList cfg fetch now refresh p.1 rest
      (q.1, p.2 :: q.2)

/-- Modelled from the spec: the orchestrator entry point
`acquire(symbols, refresh) → BatchResult` (spec §4.4): reject contract
violations (empty or duplicate-containing input) as a whole, otherwise
process every symbol in caller order and aggregate the metadata
(`returned` counts results whose status is `ok` or `stale`). -/
def acquire (cfg : OrchConfig) (fetch : Provider) (now : Time) (st : OrchState)
    (symbols : List Symbol) (refresh : Bool) :
    Except String (BatchResult × OrchState) :=
  if symbols = [] then .error "empty symbol list"
  else if ¬ symbols.Nodup then .error "duplicate symbols"
  else
    let meta0 : BatchMeta :=
      { requested := symbols.length, returned := 0, cacheHits := 0, apiCalls := 0,
        rateLimited := false }
    let out := processList cfg fetch now refresh (st, meta0) symbols
    let returned :=
      (out.2.filter fun r => r.status = QStatus.ok ∨ r.status = QStatus.stale).length
    .ok (⟨out.2, { out.1.2 with returned := returned }⟩, out.1.1)

/-- A symbol is a fetch candidate (spec glossary): the caller requested a
bypass, or the cache entry for it is absent or stale. -/
def FetchCandidate (cfg : OrchConfig) (st : OrchState) (now : Time) (refresh : Bool)
    (sym : Symbol) : Prop :=
  refresh = true ∨ ∀ e, st.cache sym = some e → cfg.ttl ≤ now - e.fetchedAt

/-! ## Frontend embeddings (`src/frontend/src/lib/format.ts`, `App.tsx`) -/

/-- A JavaScript `number | null | undefined` argument, distinguishing the
three non-finite cases the frontend guards against. -/
inductive JSNum where
  | null
  | undef
  | nan
  | num (q : ℚ)
  deriving Repr, DecidableEq

/-- JavaScript `Math.round`: round half toward positive infinity. -/
def jsRound (x : ℚ) : ℤ := ⌊x + 1 / 2⌋

/-- Two-digit zero-padded rendering of a remainder below 100. -/
def pad2 (k : ℕ) : String :=
  if k < 10 then "0" ++ toString k else toString k

/-- JavaScript `Number.prototype.toFixed(2)` on an exact rational: the sign
is taken first, then the absolute value is rounded to the nearest hundredth,
ties picking the larger numerator. -/
def toFixed2 (q : ℚ) : String :=
  let m : ℕ := (⌊|q| * 100 + 1 / 2⌋).toNat
  (if q < 0 then "-" else "") ++ toString (m / 100) ++ "." ++ pad2 (m % 100)

/-- Embedded from `format.ts` (`formatPercent`): `"N/A"` for
null/undefined/NaN, otherwise a '+' prefix for nonnegative values and the
value to two decimals followed by '%'. -/
def formatPercent : JSNum → String
  | .num q => (if 0 ≤ q then "+" else "") ++ toFixed2 q ++ "%"
  | _ => "N/A"

/-- Embedded from `format.ts` (`getColorForPercentChange`): gray for a
non-`ok` status or a non-finite percent change; otherwise clamp to
`[-5, 5]`, normalise to `[0, 1]`, and interpolate red→gray→green. -/
def getColorForPercentChange (pctChange : JSNum) (status : String) : String :=
  match pctChange with
  | .num q =>
      if status = "ok" then
        let clamped := max (-5 : ℚ) (min 5 q)
        let normalized := (clamped + 5) / 10
        if normalized < 1 / 2 then
          let t := normalized * 2
          "rgb(" ++ toString (jsRound (220 + (100 - 220) * t)) ++ ", " ++
            toString (jsRound (38 + (100 - 38) * t)) ++ ", " ++
            toString (jsRound (38 + (100 - 38) * t)) ++ ")"
        else
          let t := (normalized - 1 / 2) * 2
          "rgb(" ++ toString (jsRound (100 + (34 - 100) * t)) ++ ", " ++
            toString (jsRound (100 + (197 - 100) * t)) ++ ", " ++
            toString (jsRound (100 + (94 - 100) * t)) ++ ")"
      else "#6b7280"
  | _ => "#6b7280"

/-- Clamping of the percent-change argument to `[-5, 5]`, the identity on
the non-finite cases. -/
def clampJS : JSNum → JSNum
  | .num q => .num (max (-5 : ℚ) (min 5 q))
  | x => x

/-- A constituent row as used by `App.tsx`'s search filter. -/
structure Company where
  symbol : String
  name : String
  subIndustry : String
  deriving Repr, DecidableEq

/-- JavaScript `toLowerCase`, character by character. -/
def lowerStr (s : String) : String := s.map Char.toLower

/-- Does `needle` match at the head of `hay`? -/
def leadMatch : List Char → List Char → Bool
  | [], _ => true
  | _ :: _, [] => false
  | n :: ns, h :: hs => n == h && leadMatch ns hs

/-- Does `needle` occur contiguously anywhere in the haystack? -/
def hasSub (needle : List Char) : List Char → Bool
  | [] => leadMatch needle []
  | h :: hs => leadMatch needle (h :: hs) || hasSub needle hs

/-- JavaScript `hay.includes(needle)`. -/
def strIncludes (hay needle : String) : Bool := hasSub needle.data hay.data

/-- The per-company predicate of `App.tsx`'s filter: symbol, name or
sub-industry (lowercased) contains the (already lowercased) query. -/
def matchesQuery (query : String) (c : Company) : Bool :=
  strIncludes (lowerStr c.symbol) query || strIncludes (lowerStr c.name) query ||
    strIncludes (lowerStr c.subIndustry) query

/-- The blank-query test `!searchQuery.trim()` of `App.tsx`: a JavaScript
string trims to the empty string exactly when it is all whitespace. -/
def isBlank (s : String) : Bool := s.data.all Char.isWhitespace

/-- Embedded from `App.tsx` (`filteredCompanies`): a blank query returns the
list unchanged; otherwise keep the companies matching the lowercased query. -/
def filteredCompanies (searchQuery : String) (companies : List Company) : List Company :=
  if isBlank searchQuery then companies
  else companies.filter (matchesQuery (lowerStr searchQuery))

/-! ## Concrete instances used by witnesses and counterexamples -/

/-- A concrete quote payload. -/
def exQuote : Quote := ⟨100, 99, 99, 101, 98, 1, 1, 1000000, "finnhub"⟩

/-- A concrete cache entry for `"AAPL"`, fetched at time 0. -/
def exEntry : QuoteCacheEntry := ⟨exQuote, 0⟩

/-- A concrete cache holding only an entry for `"AAPL"`. -/
def exCache : Cache := fun s => if s = "AAPL" then some exEntry else none

/-- A concrete provider: `"MSFT"` fails with a timeout, everything else
succeeds. -/
def exFetch : Provider := fun s => if s = "MSFT" then .error "timeout" else .ok exQuote

/-- A concrete configuration with a 300-second TTL. -/
def exCfg : OrchConfig := ⟨300⟩

/-- A concrete initial batch metadata record. -/
def exMeta : BatchMeta := ⟨1, 0, 0, 0, false⟩

/-- The result of the concrete fresh-cache run used by witnesses: one
`"AAPL"` item served from cache, meta counts one cache hit, state
untouched. -/
def exRun : BatchResult × OrchState :=
  (⟨[⟨"AAPL", some exQuote, .ok, none, some .cache⟩], ⟨1, 1, 1, 0, false⟩⟩,
    ⟨⟨50, 50, 0⟩, exCache, []⟩)

/-! ## Token bucket theorems -/

theorem valid_tryAcquire {b : TokenBucket} (hb : b.Valid) {n : ℚ} (hn : 0 ≤ n)
    (now : Time) : ((b.tryAcquire n now).2).Valid := by
  unfold TokenBucket.tryAcquire TokenBucket.refill
  dsimp only
  split
  · rename_i h
    refine ⟨by linarith, ?_⟩
    dsimp only at h ⊢
    have : min b.capacity (b.tokens + (now - b.lastRefill) * (b.capacity / 60)) ≤
        b.capacity := min_le_left _ _
    linarith
  · exact hb

theorem valid_runCalls {b : TokenBucket} (hb : b.Valid) {l : List (ℚ × Time)}
    (hl : ∀ c ∈ l, 0 ≤ c.1) : (b.runCalls l).Valid := by
  induction l generalizing b with
  | nil => exact hb
  | cons c cs ih =>
    exact ih (valid_tryAcquire hb (hl c (List.mem_cons_self c cs)) c.2)
      fun d hd => hl d (List.mem_cons_of_mem c hd)

/-- Draining a full bucket with `k ≤ c` instantaneous unit acquisitions leaves
exactly `c - k` tokens. -/
theorem stepN_drain {c : ℕ} (t : Time) :
    ∀ k, k ≤ c → TokenBucket.stepN t ⟨(c : ℚ), (c : ℚ), t⟩ k = ⟨(c : ℚ), (c : ℚ) - k, t⟩ := by
  intro k
  induction k with
  | zero => intro _; simp [TokenBucket.stepN]
  | succ k ih =>
    intro hk
    have hk' : k ≤ c := Nat.le_of_succ_le hk
    have hone : (1 : ℚ) ≤ (c : ℚ) - k := by
      have : (k : ℚ) + 1 ≤ (c : ℚ) := by exact_mod_cast hk
      linarith
    have hle : (c : ℚ) - k ≤ (c : ℚ) := by
      have : (0 : ℚ) ≤ (k : ℚ) := Nat.cast_nonneg k
      linarith
    unfold TokenBucket.stepN
    rw [ih hk']
    unfold TokenBucket.tryAcquire TokenBucket.refill
    simp only [sub_self, zero_mul, add_zero, min_eq_right hle, if_pos hone]
    congr 1
    push_cast
    ring

/-- C2 counterexample: with `capacity = 2` and a bucket full at time 0, the
unit calls at times 0 and 30 are both admitted — `capacity` admitted calls
inside the minute window `[0, 60)` — yet the third `tryAcquire` of the same
window, at time 59, is admitted as well (lazy refill has replenished more
than one token), contradicting the claim that the `(capacity+1)`-th
`tryAcquire` in the same window is denied. -/
theorem tryAcquire_window_cex :
    (((⟨2, 2, 0⟩ : TokenBucket).tryAcquire 1 0).1 = true ∧
      ((((⟨2, 2, 0⟩ : TokenBucket).tryAcquire 1 0).2).tryAcquire 1 30).1 = true) ∧
    (((((⟨2, 2, 0⟩ : TokenBucket).tryAcquire 1 0).2).tryAcquire 1 30).2.tryAcquire 1 59).1
      = true := by
  norm_num [TokenBucket.tryAcquire, TokenBucket.refill, min_def]

/-- C2 (amended): `tryAcquire n` first recomputes the available tokens as
`min(capacity, tokens + elapsedSeconds * capacity/60)`, admits and subtracts
`n` exactly when that recomputed amount is at least `n`, and otherwise denies
with the bucket unchanged; consequently, after `capacity` admitted calls at a
single instant the `(capacity+1)`-th `tryAcquire` at that same instant is
denied, and after waiting a further `60/capacity` seconds exactly one more
token is available. -/
theorem tryAcquire_mechanism_and_accounting (c : ℕ) (t : Time) (hc : 1 ≤ c) :
    (∀ b : TokenBucket, ∀ n now,
      ((b.tryAcquire n now).1 = true ↔
        n ≤ min b.capacity (b.tokens + (now - b.lastRefill) * (b.capacity / 60))) ∧
      (n ≤ min b.capacity (b.tokens + (now - b.lastRefill) * (b.capacity / 60)) →
        (b.tryAcquire n now).2 =
          ⟨b.capacity,
            min b.capacity (b.tokens + (now - b.lastRefill) * (b.capacity / 60)) - n,
            now⟩) ∧
      (¬ n ≤ min b.capacity (b.tokens + (now - b.lastRefill) * (b.capacity / 60)) →
        (b.tryAcquire n now).2 = b)) ∧
    (∀ k, k < c →
      ((TokenBucket.stepN t ⟨(c : ℚ), (c : ℚ), t⟩ k).tryAcquire 1 t).1 = true) ∧
    ((TokenBucket.stepN t ⟨(c : ℚ), (c : ℚ), t⟩ c).tryAcquire 1 t).1 = false ∧
    ((TokenBucket.stepN t ⟨(c : ℚ), (c : ℚ), t⟩ c).refill (t + 60 / c)).tokens = 1 := by
  have hc0 : (0 : ℚ) < (c : ℚ) := by exact_mod_cast hc
  refine ⟨?_, ?_, ?_, ?_⟩
  · intro b n now
    by_cases h : n ≤ min b.capacity (b.tokens + (now - b.lastRefill) * (b.capacity / 60))
    · refine ⟨by simp [TokenBucket.tryAcquire, TokenBucket.refill, h], fun _ => ?_,
        fun hn => absurd h hn⟩
      simp [TokenBucket.tryAcquire, TokenBucket.refill, h]
    · refine ⟨by simp [TokenBucket.tryAcquire, TokenBucket.refill, h], fun hn => absurd hn h,
        fun _ => ?_⟩
      simp [TokenBucket.tryAcquire, TokenBucket.refill, h]
  · intro k hk
    rw [stepN_drain t k (Nat.le_of_lt hk)]
    have hone : (1 : ℚ) ≤ (c : ℚ) - k := by
      have : (k : ℚ) + 1 ≤ (c : ℚ) := by exact_mod_cast hk
      linarith
    have hle : (c : ℚ) - k ≤ (c : ℚ) := by
      have : (0 : ℚ) ≤ (k : ℚ) := Nat.cast_nonneg k
      linarith
    simp [TokenBucket.tryAcquire, TokenBucket.refill, min_eq_right hle, hone]
  · rw [stepN_drain t c le_rfl]
    simp [TokenBucket.tryAcquire, TokenBucket.refill, min_eq_right hc0.le]
    norm_num
  · rw [stepN_drain t c le_rfl]
    have h1 : (t + 60 / (c : ℚ) - t) * ((c : ℚ) / 60) = 1 := by
      field_simp
      ring
    simp only [TokenBucket.refill, sub_self, zero_add, h1]
    exact min_eq_right (by exact_mod_cast hc)

/-- Witness for the amended C2 at `capacity = 2`, `t = 0`: the third
instantaneous `tryAcquire` on an initially full two-token bucket is denied. -/
theorem tryAcquire_mechanism_and_accounting_witness :
    ((TokenBucket.stepN 0 ⟨((2 : ℕ) : ℚ), ((2 : ℕ) : ℚ), 0⟩ 2).tryAcquire 1 0).1 = false :=
  (tryAcquire_mechanism_and_accounting 2 0 (by decide)).2.2.1

/-- C3: starting from any state satisfying `0 ≤ tokens ≤ capacity`, every
state reached by a sequence of `tryAcquire` calls (any nonnegative amounts,
any call times) still satisfies it, and the lazily refilled token count at
any later clock time also stays within `[0, capacity]`: tokens never exceed
capacity and never go negative. -/
theorem tokenBucket_invariant (b : TokenBucket) (hb : b.Valid)
    (l : List (ℚ × Time)) (hl : ∀ c ∈ l, 0 ≤ c.1) :
    (b.runCalls l).Valid ∧
    ∀ now, (b.runCalls l).lastRefill ≤ now →
      0 ≤ ((b.runCalls l).refill now).tokens ∧
      ((b.runCalls l).refill now).tokens ≤ (b.runCalls l).capacity := by
  have hv := valid_runCalls hb hl
  refine ⟨hv, fun now hnow => ?_⟩
  obtain ⟨h0, hcap⟩ := hv
  unfold TokenBucket.refill
  dsimp only
  refine ⟨le_min (by linarith) ?_, min_le_left _ _⟩
  have hm : 0 ≤ (now - (b.runCalls l).lastRefill) * ((b.runCalls l).capacity / 60) :=
    mul_nonneg (by linarith) (div_nonneg (by linarith) (by norm_num))
  linarith

/-- Witness for C3 on a concrete bucket and call sequence. -/
theorem tokenBucket_invariant_witness :
    ((⟨2, 2, 0⟩ : TokenBucket).runCalls [(1, 0), (1, 10)]).Valid :=
  (tokenBucket_invariant ⟨2, 2, 0⟩ ⟨by decide, by decide⟩
    [(1, 0), (1, 10)] (by intro c hc; fin_cases hc <;> decide)).1

/-! ## Orchestrator theorems -/

theorem doFetch_symbol (fetch : Provider) (now : Time) (st : OrchState) (meta : BatchMeta)
    (sym : Symbol) : (doFetch fetch now st meta sym).2.symbol = sym := by
  simp only [doFetch]
  split
  · cases fetch sym with
    | ok q => rfl
    | error c => cases st.cache sym <;> rfl
  · cases st.cache sym <;> rfl

theorem processSymbol_symbol (cfg : OrchConfig) (fetch : Provider) (now : Time)
    (refresh : Bool) (acc : OrchState × BatchMeta) (s : Symbol) :
    (processSymbol cfg fetch now refresh acc s).2.symbol = s := by
  unfold processSymbol
  cases acc.1.cache s with
  | some e =>
      dsimp only
      split
      · rfl
      · exact doFetch_symbol ..
  | none => exact doFetch_symbol ..

theorem processList_map_symbol (cfg : OrchConfig) (fetch : Provider) (now : Time)
    (refresh : Bool) (acc : OrchState × BatchMeta) (syms : List Symbol) :
    ((processList cfg fetch now refresh acc syms).2).map PerSymbolResult.symbol = syms := by
  induction syms generalizing acc with
  | nil => rfl
  | cons s rest ih =>
      simp only [processList, List.map_cons, ih, List.cons.injEq, and_true]
      exact processSymbol_symbol ..

theorem doFetch_rateLimited (fetch : Provider) (now : Time) (st : OrchState)
    (meta : BatchMeta) (sym : Symbol) (h : meta.rateLimited = true) :
    ((doFetch fetch now st meta sym).1.2).rateLimited = true := by
  simp only [doFetch]
  split
  · cases fetch sym with
    | ok q => simpa using h
    | error c => cases st.cache sym <;> simpa using h
  · cases st.cache sym <;> rfl

theorem processSymbol_rateLimited (cfg : OrchConfig) (fetch : Provider) (now : Time)
    (refresh : Bool) (acc : OrchState × BatchMeta) (s : Symbol)
    (h : acc.2.rateLimited = true) :
    ((processSymbol cfg fetch now refresh acc s).1.2).rateLimited = true := by
  unfold processSymbol
  cases acc.1.cache s with
  | some e =>
      dsimp only
      split
      · simpa using h
      · exact doFetch_rateLimited _ _ _ _ _ h
  | none => exact doFetch_rateLimited _ _ _ _ _ h

theorem processList_rateLimited (cfg : OrchConfig) (fetch : Provider) (now : Time)
    (refresh : Bool) (acc : OrchState × BatchMeta) (syms : List Symbol)
    (h : acc.2.rateLimited = true) :
    ((processList cfg fetch now refresh acc syms).1.2).rateLimited = true := by
  induction syms generalizing acc with
  | nil => exact h
  | cons s rest ih =>
      simp only [processList]
      exact ih _ (processSymbol_rateLimited cfg fetch now refresh acc s h)

theorem processSymbol_eq_doFetch (cfg : OrchConfig) (fetch : Provider) (now : Time)
    (refresh : Bool) (acc : OrchState × BatchMeta) (s : Symbol)
    (h : FetchCandidate cfg acc.1 now refresh s) :
    processSymbol cfg fetch now refresh acc s = doFetch fetch now acc.1 acc.2 s := by
  unfold processSymbol
  cases hm : acc.1.cache s with
  | some e =>
      dsimp only
      rw [if_neg]
      rintro ⟨hr, hf⟩
      cases h with
      | inl h => rw [h] at hr; cases hr
      | inr h => exact absurd hf (not_lt.2 (h e hm))
  | none => rfl

/-- C1: a fetch-candidate symbol whose `tryAcquire(1)` is denied causes no
upstream call; when the cache holds any entry for it the per-symbol result is
`{stale, cached quote, stale_cache}` and the batch `rateLimited` flag is set
(and stays set through the rest of the batch); when no cached entry exists
the result is `{error, null quote, "rate limited, no cached data"}`. -/
theorem rateLimit_denial_fallback (cfg : OrchConfig) (fetch : Provider) (now : Time)
    (refresh : Bool) (st : OrchState) (meta : BatchMeta) (sym : Symbol)
    (hcand : FetchCandidate cfg st now refresh sym)
    (hden : (st.bucket.tryAcquire 1 now).1 = false) :
    ((processSymbol cfg fetch now refresh (st, meta) sym).1.1).calls = st.calls ∧
    (∀ e, st.cache sym = some e →
      (processSymbol cfg fetch now refresh (st, meta) sym).2 =
        ⟨sym, some e.quote, .stale, none, some .stale_cache⟩ ∧
      ((processSymbol cfg fetch now refresh (st, meta) sym).1.2).rateLimited = true) ∧
    (st.cache sym = none →
      (processSymbol cfg fetch now refresh (st, meta) sym).2 =
        ⟨sym, none, .error, some "rate limited, no cached data", none⟩) ∧
    (∀ acc : OrchState × BatchMeta, ∀ syms, acc.2.rateLimited = true →
      ((processList cfg fetch now refresh acc syms).1.2).rateLimited = true) := by
  have hstep : processSymbol cfg fetch now refresh (st, meta) sym =
      doFetch fetch now st meta sym :=
    processSymbol_eq_doFetch cfg fetch now refresh (st, meta) sym hcand
  refine ⟨?_, ?_, ?_, fun acc syms h => processList_rateLimited cfg fetch now refresh acc syms h⟩
  · rw [hstep]
    simp only [doFetch, hden, Bool.false_eq_true, if_false]
    cases st.cache sym <;> rfl
  · intro e he
    rw [hstep]
    simp only [doFetch, hden, Bool.false_eq_true, if_false, he]
    exact ⟨trivial, trivial⟩
  · intro he
    rw [hstep]
    simp only [doFetch, hden, Bool.false_eq_true, if_false, he]

/-- Witness for C1: with an empty bucket at time 300 and a cached entry for
`"AAPL"` fetched at 0 (TTL 300), the per-symbol result is the stale cached
quote served from `stale_cache`. -/
theorem rateLimit_denial_fallback_witness :
    (processSymbol exCfg exFetch 300 false (⟨⟨50, 0, 300⟩, exCache, []⟩, exMeta) "AAPL").2 =
      ⟨"AAPL", some exQuote, .stale, none, some .stale_cache⟩ :=
  ((rateLimit_denial_fallback exCfg exFetch 300 false ⟨⟨50, 0, 300⟩, exCache, []⟩ exMeta "AAPL"
    (Or.inr fun e he => by
      have h2 : exEntry = e := by simpa [exCache] using he
      subst h2
      norm_num [exEntry, exCfg])
    (by norm_num [TokenBucket.tryAcquire, TokenBucket.refill, min_def])).2.1 exEntry rfl).1

/-- C6: an admitted fetch-candidate symbol increments `apiCalls` for the
attempt regardless of outcome (exactly as for a successful fetch) and logs
one upstream call; on upstream failure the result is the stale cached entry
from `stale_cache` when any cached entry exists, and `{error, null quote,
cause}` otherwise. -/
theorem upstream_failure_fallback (cfg : OrchConfig) (fetch : Provider) (now : Time)
    (refresh : Bool) (st : OrchState) (meta : BatchMeta) (sym : Symbol)
    (hcand : FetchCandidate cfg st now refresh sym)
    (hadm : (st.bucket.tryAcquire 1 now).1 = true) :
    ((processSymbol cfg fetch now refresh (st, meta) sym).1.2).apiCalls = meta.apiCalls + 1 ∧
    ((processSymbol cfg fetch now refresh (st, meta) sym).1.1).calls = st.calls ++ [sym] ∧
    ∀ cause, fetch sym = .error cause →
      (∀ e, st.cache sym = some e →
        (processSymbol cfg fetch now refresh (st, meta) sym).2 =
          ⟨sym, some e.quote, .stale, none, some .stale_cache⟩) ∧
      (st.cache sym = none →
        (processSymbol cfg fetch now refresh (st, meta) sym).2 =
          ⟨sym, none, .error, some cause, none⟩) := by
  have hstep : processSymbol cfg fetch now refresh (st, meta) sym =
      doFetch fetch now st meta sym :=
    processSymbol_eq_doFetch cfg fetch now refresh (st, meta) sym hcand
  rw [hstep]
  simp only [doFetch, hadm, if_true]
  refine ⟨?_, ?_, ?_⟩
  · cases fetch sym with
    | ok q => rfl
    | error c => cases st.cache sym <;> rfl
  · cases fetch sym with
    | ok q => rfl
    | error c => cases st.cache sym <;> rfl
  · intro cause hc
    rw [hc]
    exact ⟨fun e he => by rw [he], fun he => by rw [he]⟩

/-- Witness for C6: a full bucket admits `"MSFT"`, the provider times out,
no cache entry exists, and `apiCalls` is incremented from 0 to 1. -/
theorem upstream_failure_fallback_witness :
    ((processSymbol exCfg exFetch 0 true (⟨⟨50, 50, 0⟩, exCache, []⟩, exMeta) "MSFT").1.2).apiCalls
      = exMeta.apiCalls + 1 :=
  (upstream_failure_fallback exCfg exFetch 0 true ⟨⟨50, 50, 0⟩, exCache, []⟩ exMeta "MSFT"
    (Or.inl rfl)
    (by norm_num [TokenBucket.tryAcquire, TokenBucket.refill, min_def])).1

/-- C7: `acquire` rejects as a whole exactly when its input violates the
caller contract (empty or duplicate-containing symbol list); every
contract-satisfying input produces a `BatchResult` for every provider,
bucket, cache and clock, so no individual symbol failure aborts the batch. -/
theorem acquire_contract (cfg : OrchConfig) (fetch : Provider) (now : Time)
    (st : OrchState) (symbols : List Symbol) (refresh : Bool) :
    (∃ r, acquire cfg fetch now st symbols refresh = .ok r) ↔
      symbols ≠ [] ∧ symbols.Nodup := by
  unfold acquire
  by_cases h1 : symbols = []
  · simp [h1]
  · by_cases h2 : symbols.Nodup
    · simp [h1, h2]
    · simp [h1, h2]

/-- Witness for C7: a singleton request is accepted. -/
theorem acquire_contract_witness :
    ∃ r, acquire exCfg exFetch 0 ⟨⟨50, 50, 0⟩, exCache, []⟩ ["AAPL"] false = .ok r :=
  (acquire_contract exCfg exFetch 0 ⟨⟨50, 50, 0⟩, exCache, []⟩ ["AAPL"] false).mpr
    ⟨by decide, by decide⟩

theorem map_symbol_get (l : List PerSymbolResult) (s : List Symbol)
    (h : l.map PerSymbolResult.symbol = s) :
    ∀ i (hi : i < l.length) (hi' : i < s.length),
      (l.get ⟨i, hi⟩).symbol = s.get ⟨i, hi'⟩ := by
  subst h
  intro i hi hi'
  simp [List.getElem_map]

/-- The concrete fresh-cache run: the single requested symbol is served from
the cache without touching bucket, cache or call log. -/
theorem acquire_exRun :
    acquire exCfg exFetch 0 ⟨⟨50, 50, 0⟩, exCache, []⟩ ["AAPL"] false = .ok exRun := by
  norm_num [acquire, processList, processSymbol, exCache, exCfg, exEntry, exRun,
    List.filter]

/-- C5: a successful `acquire` returns exactly one item per requested symbol
and `items[i].symbol = symbols[i]` for every index, whatever mixture of
cache hits, fetches and failures occurred. -/
theorem acquire_order_preservation (cfg : OrchConfig) (fetch : Provider) (now : Time)
    (st : OrchState) (symbols : List Symbol) (refresh : Bool) (r : BatchResult × OrchState)
    (h : acquire cfg fetch now st symbols refresh = .ok r) :
    r.1.items.map PerSymbolResult.symbol = symbols ∧
    r.1.items.length = symbols.length ∧
    ∀ i (hi : i < r.1.items.length) (hi' : i < symbols.length),
      (r.1.items.get ⟨i, hi⟩).symbol = symbols.get ⟨i, hi'⟩ := by
  simp only [acquire] at h
  split_ifs at h with h1 h2
  have hmap : r.1.items.map PerSymbolResult.symbol = symbols := by
    injection h with h3
    rw [← h3]
    exact processList_map_symbol ..
  refine ⟨hmap, ?_, map_symbol_get _ _ hmap⟩
  have := congrArg List.length hmap
  simpa using this

/-- Witness for C5 on the concrete fresh-cache run. -/
theorem acquire_order_preservation_witness :
    exRun.1.items.map PerSymbolResult.symbol = ["AAPL"] :=
  (acquire_order_preservation exCfg exFetch 0 ⟨⟨50, 50, 0⟩, exCache, []⟩ ["AAPL"] false exRun
    acquire_exRun).1

theorem doFetch_cache_pres (fetch : Provider) (now : Time) (st : OrchState)
    (meta : BatchMeta) (s s' : Symbol) (hne : s' ≠ s) :
    (doFetch fetch now st meta s).1.1.cache s' = st.cache s' := by
  simp only [doFetch]
  split
  · cases fetch s with
    | ok q => simp [hne]
    | error c => cases st.cache s <;> rfl
  · cases st.cache s <;> rfl

theorem processSymbol_cache_pres (cfg : OrchConfig) (fetch : Provider) (now : Time)
    (refresh : Bool) (acc : OrchState × BatchMeta) (s s' : Symbol) (hne : s' ≠ s) :
    (processSymbol cfg fetch now refresh acc s).1.1.cache s' = acc.1.cache s' := by
  unfold processSymbol
  cases acc.1.cache s with
  | some e =>
      dsimp only
      split
      · rfl
      · exact doFetch_cache_pres _ _ _ _ _ _ hne
  | none => exact doFetch_cache_pres _ _ _ _ _ _ hne

theorem doFetch_calls_admitted (fetch : Provider) (now : Time) (st : OrchState)
    (meta : BatchMeta) (s : Symbol) (hadm : (st.bucket.tryAcquire 1 now).1 = true) :
    (doFetch fetch now st meta s).1.1.calls = st.calls ++ [s] := by
  simp only [doFetch, hadm, if_true]
  cases fetch s with
  | ok q => rfl
  | error c => cases st.cache s <;> rfl

theorem processSymbol_calls_sub (cfg : OrchConfig) (fetch : Provider) (now : Time)
    (refresh : Bool) (acc : OrchState × BatchMeta) (s : Symbol) :
    ∃ l, (processSymbol cfg fetch now refresh acc s).1.1.calls = acc.1.calls ++ l ∧
      ∀ x ∈ l, x = s := by
  have hdo : ∃ l, (doFetch fetch now acc.1 acc.2 s).1.1.calls = acc.1.calls ++ l ∧
      ∀ x ∈ l, x = s := by
    simp only [doFetch]
    split
    · refine ⟨[s], ?_, by simp⟩
      cases fetch s with
      | ok q => rfl
      | error c => cases acc.1.cache s <;> rfl
    · refine ⟨[], ?_, by simp⟩
      cases acc.1.cache s <;> simp
  unfold processSymbol
  cases acc.1.cache s with
  | some e =>
      dsimp only
      split
      · exact ⟨[], by simp, by simp⟩
      · exact hdo
  | none => exact hdo

theorem processSymbol_count_ne (cfg : OrchConfig) (fetch : Provider) (now : Time)
    (refresh : Bool) (acc : OrchState × BatchMeta) (s sym : Symbol) (hne : sym ≠ s) :
    ((processSymbol cfg fetch now refresh acc s).1.1.calls).count sym
      = (acc.1.calls).count sym := by
  obtain ⟨l, hl, hall⟩ := processSymbol_calls_sub cfg fetch now refresh acc s
  rw [hl, List.count_append]
  have h0 : l.count sym = 0 := by
    rw [List.count_eq_zero]
    intro hmem
    exact hne (hall sym hmem)
  rw [h0, Nat.add_zero]

theorem processList_count_not_mem (cfg : OrchConfig) (fetch : Provider) (now : Time)
    (refresh : Bool) (syms : List Symbol) (sym : Symbol) (hnm : sym ∉ syms) :
    ∀ acc, ((processList cfg fetch now refresh acc syms).1.1.calls).count sym
      = (acc.1.calls).count sym := by
  induction syms with
  | nil => intro acc; rfl
  | cons s rest ih =>
      intro acc
      have hne : sym ≠ s := fun h => hnm (h ▸ List.mem_cons_self s rest)
      have hrest : sym ∉ rest := fun h => hnm (List.mem_cons_of_mem s h)
      simp only [processList]
      rw [ih hrest]
      exact processSymbol_count_ne cfg fetch now refresh acc s sym hne

theorem processSymbol_freshHit (cfg : OrchConfig) (fetch : Provider) (now : Time)
    (acc : OrchState × BatchMeta) (s : Symbol) (e : QuoteCacheEntry)
    (hc : acc.1.cache s = some e) (hf : now - e.fetchedAt < cfg.ttl) :
    processSymbol cfg fetch now false acc s =
      ((acc.1, { acc.2 with cacheHits := acc.2.cacheHits + 1 }),
        ⟨s, some e.quote, .ok, none, some .cache⟩) := by
  unfold processSymbol
  rw [hc]
  dsimp only
  rw [if_pos ⟨rfl, hf⟩]

/-- The heart of the fresh-cache short-circuit: in a duplicate-free batch
containing `sym` whose cache entry is fresh at `now`, the batch neither
makes an upstream call for `sym` nor reports anything but the cached `ok`
result for it. -/
theorem processList_fresh (cfg : OrchConfig) (fetch : Provider) (now : Time)
    (syms : List Symbol) :
    ∀ acc (sym : Symbol) (e : QuoteCacheEntry), syms.Nodup → sym ∈ syms →
      acc.1.cache sym = some e → now - e.fetchedAt < cfg.ttl →
      ((processList cfg fetch now false acc syms).1.1.calls).count sym
        = (acc.1.calls).count sym ∧
      ∀ item ∈ (processList cfg fetch now false acc syms).2, item.symbol = sym →
        item = ⟨sym, some e.quote, .ok, none, some .cache⟩ := by
  induction syms with
  | nil => intro acc sym e _ hmem; cases hmem
  | cons s rest ih =>
      intro acc sym e hnd hmem hc hf
      obtain ⟨hs, hndr⟩ := List.nodup_cons.mp hnd
      by_cases hss : sym = s
      · subst hss
        have hstep := processSymbol_freshHit cfg fetch now acc sym e hc hf
        simp only [processList, hstep]
        constructor
        · exact processList_count_not_mem cfg fetch now false rest sym hs _
        · intro item hitem hsym
          rcases List.mem_cons.mp hitem with hhead | htail
          · exact hhead
          · exfalso
            have hin : item.symbol ∈ rest := by
              have hmm := List.mem_map_of_mem PerSymbolResult.symbol htail
              rwa [processList_map_symbol] at hmm
            rw [hsym] at hin
            exact hs hin
      · have hmr : sym ∈ rest := by
          rcases List.mem_cons.mp hmem with h | h
          · exact absurd h hss
          · exact h
        have hcp : (processSymbol cfg fetch now false acc s).1.1.cache sym = some e := by
          rw [processSymbol_cache_pres cfg fetch now false acc s sym hss]
          exact hc
        have hih := ih (processSymbol cfg fetch now false acc s).1 sym e hndr hmr hcp hf
        simp only [processList]
        constructor
        · rw [hih.1]
          exact processSymbol_count_ne cfg fetch now false acc s sym hss
        · intro item hitem hsym
          rcases List.mem_cons.mp hitem with hhead | htail
          · exfalso
            apply hss
            rw [← hsym, hhead]
            exact processSymbol_symbol cfg fetch now false acc s
          · exact hih.2 item htail hsym

/-- C4 counterexample: TTL 300, entry for `"AAPL"` fetched at time 0, clock
at 300 (at expiry), and an empty bucket: `acquire` with `refresh = false`
treats the symbol as a fetch candidate but makes no upstream call — the call
log stays empty and the item is served stale — refuting the claim that an
upstream call is attempted at any time at or after `T + TTL`. -/
theorem expiry_fetch_cex :
    (acquire exCfg exFetch 300 ⟨⟨50, 0, 300⟩, exCache, []⟩ ["AAPL"] false).map
        (fun r => (r.2.calls, r.1.items.map PerSymbolResult.status))
      = .ok ([], [QStatus.stale]) ∧
    exCache "AAPL" = some exEntry ∧ exEntry.fetchedAt + exCfg.ttl ≤ 300 := by
  refine ⟨?_, rfl, by norm_num [exEntry, exCfg]⟩
  norm_num [acquire, processList, processSymbol, doFetch, TokenBucket.tryAcquire,
    TokenBucket.refill, exCache, exCfg, exEntry, min_def, Except.map, List.filter]

/-- C4 (amended): for a symbol whose cache entry was written at `fetchedAt`,
an `acquire` with `refresh = false` strictly before `fetchedAt + TTL` makes
no upstream call for that symbol and reports the cached quote with status
`ok`, source `cache` and `cacheHits` incremented; at or after
`fetchedAt + TTL` the symbol is treated as a fetch candidate and, provided
the rate limiter admits its token request, an upstream call is made for
it. -/
theorem acquire_ttl_freshness (cfg : OrchConfig) (fetch : Provider) (now : Time)
    (st : OrchState) (symbols : List Symbol) (sym : Symbol) (e : QuoteCacheEntry)
    (r : BatchResult × OrchState)
    (hcache : st.cache sym = some e) (hmem : sym ∈ symbols)
    (hok : acquire cfg fetch now st symbols false = .ok r) :
    (now - e.fetchedAt < cfg.ttl →
      (r.2.calls).count sym = (st.calls).count sym ∧
      (∀ item ∈ r.1.items, item.symbol = sym →
        item = ⟨sym, some e.quote, .ok, none, some .cache⟩) ∧
      (∀ st' : OrchState, ∀ meta' : BatchMeta, st'.cache sym = some e →
        processSymbol cfg fetch now false (st', meta') sym =
          ((st', { meta' with cacheHits := meta'.cacheHits + 1 }),
            ⟨sym, some e.quote, .ok, none, some .cache⟩))) ∧
    (cfg.ttl ≤ now - e.fetchedAt →
      FetchCandidate cfg st now false sym ∧
      ∀ st' : OrchState, ∀ meta' : BatchMeta, st'.cache sym = some e →
        processSymbol cfg fetch now false (st', meta') sym =
          doFetch fetch now st' meta' sym ∧
        ((st'.bucket.tryAcquire 1 now).1 = true →
          (processSymbol cfg fetch now false (st', meta') sym).1.1.calls
            = st'.calls ++ [sym])) := by
  simp only [acquire] at hok
  split_ifs at hok with h1 h2
  have hnd : symbols.Nodup := h2
  injection hok with h3
  subst h3
  constructor
  · intro hfresh
    have hmain := processList_fresh cfg fetch now symbols
      (st, ⟨symbols.length, 0, 0, 0, false⟩) sym e hnd hmem hcache hfresh
    refine ⟨hmain.1, hmain.2, ?_⟩
    intro st' meta' hce
    exact processSymbol_freshHit cfg fetch now (st', meta') sym e hce hfresh
  · intro hexp
    have hcand : ∀ st'' : OrchState, st''.cache sym = some e →
        FetchCandidate cfg st'' now false sym := by
      intro st'' hce
      refine Or.inr fun e' he' => ?_
      rw [hce] at he'
      injection he' with h4
      rw [← h4]
      exact hexp
    refine ⟨hcand st hcache, ?_⟩
    intro st' meta' hce
    have hstep := processSymbol_eq_doFetch cfg fetch now false (st', meta') sym
      (hcand st' hce)
    refine ⟨hstep, fun hadm => ?_⟩
    rw [hstep]
    exact doFetch_calls_admitted fetch now st' meta' sym hadm

/-- Witness for the amended C4 on the concrete fresh-cache run: no upstream
call is logged for `"AAPL"`. -/
theorem acquire_ttl_freshness_witness :
    exRun.2.calls.count "AAPL" = ([] : List Symbol).count "AAPL" :=
  ((acquire_ttl_freshness exCfg exFetch 0 ⟨⟨50, 50, 0⟩, exCache, []⟩ ["AAPL"] "AAPL" exEntry
    exRun rfl (List.mem_singleton.mpr rfl) acquire_exRun).1
    (by norm_num [exEntry, exCfg])).1

/-! ## Frontend theorems -/

theorem formatPercent_na_ne (q : ℚ) : formatPercent (.num q) ≠ "N/A" := by
  intro h
  have hd := congrArg (fun s : String => s.data.getLast?) h
  simp only [formatPercent, String.data_append] at hd
  rw [List.getLast?_concat] at hd
  exact absurd hd (by decide)

/-- C9: `formatPercent` returns `"N/A"` exactly on null, undefined and NaN;
every finite value renders as the sign prefix, the value to two decimals
(nearest-hundredth rounding of the absolute value) and a trailing `%`, with
the `'+'` prefix present if and only if the value is nonnegative. -/
theorem formatPercent_spec :
    (∀ x : JSNum, formatPercent x = "N/A" ↔
      (x = .null ∨ x = .undef ∨ x = .nan)) ∧
    (∀ q : ℚ, formatPercent (.num q) =
      (if 0 ≤ q then "+" else "") ++ toFixed2 q ++ "%") ∧
    (∀ q : ℚ, (∃ r, formatPercent (.num q) = "+" ++ r) ↔ 0 ≤ q) ∧
    (∀ q : ℚ, |((⌊|q| * 100 + 1 / 2⌋ : ℤ) : ℚ) - |q| * 100| ≤ 1 / 2) := by
  refine ⟨?_, fun q => rfl, ?_, ?_⟩
  · intro x
    constructor
    · intro h
      cases x with
      | null => exact Or.inl rfl
      | undef => exact Or.inr (Or.inl rfl)
      | nan => exact Or.inr (Or.inr rfl)
      | num q => exact absurd h (formatPercent_na_ne q)
    · rintro (h | h | h) <;> subst h <;> rfl
  · intro q
    constructor
    · rintro ⟨r, h⟩
      by_contra hn
      have hq : q < 0 := not_le.mp hn
      have hd := congrArg (fun s : String => s.data.head?) h
      simp only [formatPercent, toFixed2, if_neg hn, if_pos hq,
        String.data_append] at hd
      simp at hd
    · intro hq
      exact ⟨toFixed2 q ++ "%", by
        simp only [formatPercent, if_pos hq, String.append_assoc]⟩
  · intro q
    have h1 : ((⌊|q| * 100 + 1 / 2⌋ : ℤ) : ℚ) ≤ |q| * 100 + 1 / 2 := Int.floor_le _
    have h2 : |q| * 100 + 1 / 2 - 1 < ((⌊|q| * 100 + 1 / 2⌋ : ℤ) : ℚ) :=
      Int.sub_one_lt_floor _
    rw [abs_le]
    constructor <;> linarith

/-- Witness for C9: the value `1` renders with a `'+'` prefix. -/
theorem formatPercent_spec_witness :
    ∃ r, formatPercent (.num 1) = "+" ++ r :=
  (formatPercent_spec.2.2.1 1).mpr (by decide)

theorem getColor_eq_clamp (q : ℚ) (status : String) :
    getColorForPercentChange (.num q) status
      = getColorForPercentChange (.num (max (-5) (min 5 q))) status := by
  have h2 : max (-5 : ℚ) (min 5 q) ≤ 5 := max_le (by norm_num) (min_le_left _ _)
  have hidem : max (-5 : ℚ) (min 5 (max (-5) (min 5 q))) = max (-5) (min 5 q) := by
    rw [min_eq_right h2, ← max_assoc, max_self]
  simp only [getColorForPercentChange]
  rw [hidem]

/-- C10: `getColorForPercentChange` is invariant under clamping its percent
argument to `[-5, 5]`: it agrees with itself at the clamped value for every
input (non-finite inputs clamp to themselves), values at or below `-5` give
the `-5` colour, values at or above `5` give the `5` colour, and any
non-`ok` status gives the fixed gray `#6b7280`. -/
theorem getColor_clamp_invariant (p : JSNum) (status : String) :
    getColorForPercentChange p status = getColorForPercentChange (clampJS p) status ∧
    (∀ q : ℚ, q ≤ -5 → getColorForPercentChange (.num q) status
        = getColorForPercentChange (.num (-5)) status) ∧
    (∀ q : ℚ, 5 ≤ q → getColorForPercentChange (.num q) status
        = getColorForPercentChange (.num 5) status) ∧
    (status ≠ "ok" → getColorForPercentChange p status = "#6b7280") := by
  refine ⟨?_, ?_, ?_, ?_⟩
  · cases p with
    | num q => exact getColor_eq_clamp q status
    | null => rfl
    | undef => rfl
    | nan => rfl
  · intro q hq
    rw [getColor_eq_clamp q status, min_eq_right (le_trans hq (by norm_num)),
      max_eq_left hq]
  · intro q hq
    rw [getColor_eq_clamp q status, min_eq_left hq]
    norm_num
  · intro hs
    cases p with
    | num q => simp [getColorForPercentChange, hs]
    | null => rfl
    | undef => rfl
    | nan => rfl

/-- Witness for C10: `7%` maps to the same colour as `5%`. -/
theorem getColor_clamp_invariant_witness :
    getColorForPercentChange (.num 7) "ok" = getColorForPercentChange (.num 5) "ok" :=
  (getColor_clamp_invariant (.num 7) "ok").2.2.1 7 (by decide)

/-- C8: the search filter returns an order-preserving subsequence of the
input containing exactly the companies whose symbol, name or sub-industry
contains the lowercased query (case-insensitively), and a blank (empty or
all-whitespace) query returns the input unchanged. -/
theorem filteredCompanies_spec (companies : List Company) (q : String) :
    (filteredCompanies q companies).Sublist companies ∧
    (isBlank q = true → filteredCompanies q companies = companies) ∧
    (isBlank q = false →
      ∀ c, c ∈ filteredCompanies q companies ↔
        c ∈ companies ∧ matchesQuery (lowerStr q) c = true) := by
  refine ⟨?_, ?_, ?_⟩
  · unfold filteredCompanies
    split
    · exact List.Sublist.refl companies
    · exact List.filter_sublist companies
  · intro hb
    simp [filteredCompanies, hb]
  · intro hb c
    simp [filteredCompanies, hb, List.mem_filter]

/-- Witness for C8: an all-whitespace query leaves a concrete list
unchanged. -/
theorem filteredCompanies_spec_witness :
    filteredCompanies " " [⟨"AAPL", "Apple Inc", "Tech Hardware"⟩]
      = [⟨"AAPL", "Apple Inc", "Tech Hardware"⟩] :=
  (filteredCompanies_spec [⟨"AAPL", "Apple Inc", "Tech Hardware"⟩] " ").2.1 (by decide)

end Dashboard
